import Mathlib

/-!
# Verification of the variational Gibbs-state preparation notebook

Shallow embedding of the algorithmic core of `src/QML/Session3.ipynb`
(a variational quantum Boltzmann machine tutorial):

* `get_gibbs_state_params` — the imaginary-time explicit-Euler integrator
  (notebook cell 16).  The call to qiskit's `NaturalGradient ... eval()`
  is the external Metric/Gradient Oracle and enters as a function
  argument `grad`; the module-level globals `t` and `num_time_steps`
  read inside the loop body enter as explicit arguments.  Float
  arithmetic is modelled exactly over `ℚ`.
* `lossNp` — the distribution-fitting loss (cell 25), modelled over an
  IEEE-style value type `NpVal` that carries the special values
  (`-inf` from `log 0`, `nan` from `0 * -inf`) exactly as numpy
  produces them; finite arithmetic is exact over `ℝ`.
* `param_values_init` — the ansatz parameter initialisation (cell 8).
* `reducedDensityMatrix` — the partial trace of a pure state over the
  traced-out subsystem (provided by qiskit, external to the notebook).
* a heap-passing variant of the integrator used to state the frame
  property (the caller's parameter array is never mutated).
-/

/-! ## IEEE-style scalar values (numpy semantics)

`NpVal` models a double as an exact real plus the special values
`+inf`, `-inf`, `nan`.  Only the operations the notebook's loss and
integrator use are modelled: negation, addition, subtraction,
multiplication, `np.log`, `np.sum`. -/

inductive NpVal : Type
  | fin (r : ℝ)
  | posinf
  | neginf
  | nan

namespace NpVal

/-- IEEE negation. -/
def neg : NpVal → NpVal
  | fin r => fin (-r)
  | posinf => neginf
  | neginf => posinf
  | nan => nan

/-- IEEE addition: `nan` is absorbing, `(+inf) + (-inf) = nan`. -/
def add : NpVal → NpVal → NpVal
  | fin a, fin b => fin (a + b)
  | fin _, posinf => posinf
  | fin _, neginf => neginf
  | posinf, fin _ => posinf
  | posinf, posinf => posinf
  | posinf, neginf => nan
  | neginf, fin _ => neginf
  | neginf, posinf => nan
  | neginf, neginf => neginf
  | _, nan => nan
  | nan, _ => nan

/-- IEEE subtraction, `a - b = a + (-b)`. -/
def sub (a b : NpVal) : NpVal := add a (neg b)

open Classical in
/-- IEEE multiplication: `nan` absorbing, `0 * (±inf) = nan`,
sign rules for infinities. -/
noncomputable def mul : NpVal → NpVal → NpVal
  | fin a, fin b => fin (a * b)
  | fin a, posinf => if 0 < a then posinf else if a < 0 then neginf else nan
  | fin a, neginf => if 0 < a then neginf else if a < 0 then posinf else nan
  | posinf, fin b => if 0 < b then posinf else if b < 0 then neginf else nan
  | neginf, fin b => if 0 < b then neginf else if b < 0 then posinf else nan
  | posinf, posinf => posinf
  | posinf, neginf => neginf
  | neginf, posinf => neginf
  | neginf, neginf => posinf
  | _, nan => nan
  | nan, _ => nan

open Classical in
/-- `np.log`: `log 0 = -inf`, `log x = nan` for `x < 0`, the real
logarithm for `x > 0`. -/
noncomputable def log : NpVal → NpVal
  | fin r => if 0 < r then fin (Real.log r) else if r = 0 then neginf else nan
  | posinf => posinf
  | neginf => nan
  | nan => nan

/-- `np.sum`: left fold of IEEE addition starting from `0`. -/
def sum (l : List NpVal) : NpVal := l.foldl add (fin 0)

end NpVal

/-! ## The imaginary-time integrator (notebook cell 16)

```python
def get_gibbs_state_params(op, ansatz, param_values, time_steps):
    nat_grad = NaturalGradient().convert(op, ansatz.ordered_parameters,
                                         method='lin_comb', regularization='ridge')
    for step in time_steps:
        param_dict = dict(zip(ansatz.ordered_parameters, param_values))
        nat_grad_result = np.real(nat_grad.assign_parameters(param_dict).eval())
        param_values = list(np.subtract(param_values,
                                        t/num_time_steps * np.real(nat_grad_result)))
    return param_values
```

`grad` stands for `pv ↦ np.real(nat_grad.assign_parameters(pv).eval())`,
the external Metric/Gradient Oracle.  `t` and `num_time_steps` are the
module-level globals read inside the loop body (they are NOT among the
function's Python arguments); they are threaded explicitly here so that
the dependence on them can be stated.  Floats are modelled exactly as
rationals. -/

/-- One explicit-Euler update: `np.subtract(param_values, t/num_time_steps * grad(param_values))`,
elementwise. -/
def natGradStep (grad : List ℚ → List ℚ) (t : ℚ) (num_time_steps : ℕ)
    (param_values : List ℚ) : List ℚ :=
  List.zipWith (fun p g => p - t / (num_time_steps : ℚ) * g)
    param_values (grad param_values)

/-- The integrator: fold the Euler update over the time grid; the loop
variable `step` is never used in the body. -/
def get_gibbs_state_params (grad : List ℚ → List ℚ) (t : ℚ) (num_time_steps : ℕ)
    (param_values : List ℚ) (time_steps : List ℚ) : List ℚ :=
  time_steps.foldl (fun pv _ => natGradStep grad t num_time_steps pv) param_values

/-- `np.linspace(a, b, n)`: `n` evenly spaced points from `a` to `b`
inclusive (`n = 1` gives `[a]`). -/
def linspace (a b : ℚ) (n : ℕ) : List ℚ :=
  if n = 1 then [a]
  else (List.range n).map (fun i => a + (b - a) * i / ((n : ℚ) - 1))

/-! ### Heap-passing variant for the frame property

The Python `param_values` name is rebound each iteration to a freshly
built `list(...)`; the caller's array object is never written.  To state
this, arrays live in a heap (a list of cells) addressed by index; each
loop iteration allocates a fresh cell at the end of the heap and rebinds
the local reference to it. -/

/-- One loop iteration on (heap, reference-to-current-params): read the
current cell, allocate the freshly built updated list, rebind. -/
def gibbsHeapStep (grad : List ℚ → List ℚ) (t : ℚ) (num_time_steps : ℕ)
    (st : List (List ℚ) × ℕ) : List (List ℚ) × ℕ :=
  (st.1 ++ [natGradStep grad t num_time_steps (st.1.getD st.2 [])], st.1.length)

/-- The integrator acting on the heap: the result is the final heap
together with the reference the local name holds at return. -/
def get_gibbs_state_params_heap (grad : List ℚ → List ℚ) (t : ℚ) (num_time_steps : ℕ)
    (st : List (List ℚ) × ℕ) (time_steps : List ℚ) : List (List ℚ) × ℕ :=
  time_steps.foldl (fun s _ => gibbsHeapStep grad t num_time_steps s) st

/-! ### IEEE-valued variant of the integrator

Used to settle what happens when the regularized solve inside the
oracle fails and returns `nan` entries: the notebook has no `try`,
no error type and no sentinel — the subtraction simply runs on the
special values. -/

/-- One Euler update on IEEE values. -/
noncomputable def natGradStepNp (grad : List NpVal → List NpVal) (t : ℝ) (num_time_steps : ℕ)
    (param_values : List NpVal) : List NpVal :=
  List.zipWith (fun p g => NpVal.sub p (NpVal.mul (NpVal.fin (t / (num_time_steps : ℝ))) g))
    param_values (grad param_values)

/-- The integrator on IEEE values. -/
noncomputable def get_gibbs_state_params_np (grad : List NpVal → List NpVal) (t : ℝ)
    (num_time_steps : ℕ) (param_values : List NpVal) (time_steps : List NpVal) : List NpVal :=
  time_steps.foldl (fun pv _ => natGradStepNp grad t num_time_steps pv) param_values

/-! ## The distribution-fitting loss (notebook cell 25)

```python
loss_fn = -np.sum(np.multiply(p_target, np.log(p_qbm)))
```

`np.log` is applied to EVERY entry of `p_qbm` (there is no masking of
zero-target indices), then multiplied elementwise with `p_target`,
summed and negated. -/

/-- The loss as the notebook computes it, on IEEE values:
`-np.sum(np.multiply(p_target, np.log(p_qbm)))`. -/
noncomputable def lossNp (p_target p_qbm : List ℝ) : NpVal :=
  NpVal.neg (NpVal.sum (List.zipWith NpVal.mul
    (p_target.map NpVal.fin)
    ((p_qbm.map NpVal.fin).map NpVal.log)))

/-! ## Ansatz parameter initialisation (notebook cell 8)

```python
param_values_init = np.zeros(2 * H.num_qubits * (depth + 1))
for j in range(2 * H.num_qubits * depth, int(len(param_values_init) - H.num_qubits - 2)):
    param_values_init[int(j)] = np.pi/2.
```
-/

/-- Initial ansatz parameter vector: zeros of length
`2*num_qubits*(depth+1)`, with the entries indexed by
`range(2*num_qubits*depth, len - num_qubits - 2)` set to `π/2`. -/
noncomputable def param_values_init (num_qubits depth : ℕ) : List ℝ :=
  (List.range (2 * num_qubits * (depth + 1))).map fun j =>
    if 2 * num_qubits * depth ≤ j ∧ j < 2 * num_qubits * (depth + 1) - num_qubits - 2
    then Real.pi / 2 else 0

/-! ## Reduced density matrix

`qiskit.quantum_info.partial_trace` is an external collaborator of the
notebook (no source in this repository).  Modelled from the spec:
"Partial trace: the operation reducing a pure state on a larger system
to a mixed state (density matrix) on a subsystem by summing out the
complementary degrees of freedom"; the pure state on the full system is
indexed by (traced-out index `a : Fin dA`, kept index `b : Fin dB`). -/

/-- Modelled from the spec: the reduced density matrix of the pure state
`ψ` obtained by summing out the traced subsystem:
`ρ b b' = ∑ a, ψ a b * conj (ψ a b')`. -/
noncomputable def reducedDensityMatrix (dA dB : ℕ) (ψ : Fin dA → Fin dB → ℂ) :
    Matrix (Fin dB) (Fin dB) ℂ :=
  fun b b' => ∑ a, ψ a b * (starRingEnd ℂ) (ψ a b')

/-! ## Helper lemmas -/

/-- Folding a step function that ignores the list elements is iteration,
once per element. -/
theorem foldl_const_eq_iterate {α β : Type} (f : α → α) (ts : List β) (x : α) :
    ts.foldl (fun a _ => f a) x = f^[ts.length] x := by
  induction ts generalizing x with
  | nil => rfl
  | cons a ts ih => simp [List.foldl_cons, ih, Function.iterate_succ_apply]

/-- Subtracting a scaled all-zeros gradient changes nothing. -/
theorem zipWith_sub_smul_replicate_zero (s : ℚ) (pv : List ℚ) :
    List.zipWith (fun p g => p - s * g) pv (List.replicate pv.length 0) = pv := by
  induction pv with
  | nil => rfl
  | cons p pv ih => simp [List.replicate_succ, ih]

/-- The heap-passing integrator only ever appends fresh cells to the heap. -/
theorem gibbsHeap_only_allocates (grad : List ℚ → List ℚ) (t : ℚ) (num_time_steps : ℕ)
    (ts : List ℚ) :
    ∀ st : List (List ℚ) × ℕ,
      ∃ ext, (get_gibbs_state_params_heap grad t num_time_steps st ts).1 = st.1 ++ ext := by
  induction ts with
  | nil => exact fun st => ⟨[], (List.append_nil _).symm⟩
  | cons a ts ih =>
    intro st
    obtain ⟨ext, hext⟩ := ih (gibbsHeapStep grad t num_time_steps st)
    refine ⟨natGradStep grad t num_time_steps (st.1.getD st.2 []) :: ext, ?_⟩
    have : get_gibbs_state_params_heap grad t num_time_steps st (a :: ts) =
        get_gibbs_state_params_heap grad t num_time_steps
          (gibbsHeapStep grad t num_time_steps st) ts := rfl
    rw [this, hext]
    simp [gibbsHeapStep]

/-! ## Claims about the integrator -/

/-- C1: with the notebook globals `t = 0.5`, `num_time_steps = 10`,
every Euler update inside `get_gibbs_state_params` subtracts
`(t/num_time_steps) * direction = 0.05 * direction` elementwise, and
this step size is the horizon divided by the grid cardinality, not the
local spacing `t/(num_steps-1)` of the `linspace` grid (whose first
spacing is `(1/2)/9`). -/
theorem get_gibbs_step_size_is_horizon_div_cardinality
    (grad : List ℚ → List ℚ) (pv ts : List ℚ) :
    get_gibbs_state_params grad (1/2) 10 pv ts =
      ts.foldl (fun pv _ => List.zipWith (fun p g => p - 1/20 * g) pv (grad pv)) pv ∧
    ((1:ℚ)/2) / 10 = 1/20 ∧
    ((1:ℚ)/2) / 10 ≠ ((1:ℚ)/2) / (10 - 1) ∧
    (linspace 0 (1/2) 10).getD 1 0 - (linspace 0 (1/2) 10).getD 0 0 = ((1:ℚ)/2) / (10 - 1) := by
  refine ⟨?_, by norm_num, by norm_num, ?_⟩
  · simp only [get_gibbs_state_params, natGradStep]
    norm_num
  · rw [linspace]
    norm_num [List.range_succ]

/-- C2: the integrator is the `ts.length`-fold composition of the Euler
step, applied sequentially from the initial vector; a grid of length 1
performs exactly one update. -/
theorem get_gibbs_iterates_once_per_grid_point
    (grad : List ℚ → List ℚ) (t : ℚ) (num_time_steps : ℕ) (pv ts : List ℚ) :
    get_gibbs_state_params grad t num_time_steps pv ts =
      (natGradStep grad t num_time_steps)^[ts.length] pv ∧
    (ts.length = 1 →
      get_gibbs_state_params grad t num_time_steps pv ts =
        natGradStep grad t num_time_steps pv) := by
  constructor
  · exact foldl_const_eq_iterate _ ts pv
  · intro h
    rw [get_gibbs_state_params, foldl_const_eq_iterate _ ts pv, h, Function.iterate_one]

/-- Witness for C2 at a concrete input: a one-point grid performs
exactly one update. -/
theorem get_gibbs_iterates_once_per_grid_point_witness :
    get_gibbs_state_params (fun pv => pv.map fun _ => 1) (1/2) 10 [0, 0] [0] =
      natGradStep (fun pv => pv.map fun _ => 1) (1/2) 10 [0, 0] :=
  (get_gibbs_iterates_once_per_grid_point (fun pv => pv.map fun _ => 1)
    (1/2) 10 [0, 0] [0]).2 rfl

/-- C5: when the oracle returns the zero vector at every parameter
point (all Hamiltonian coefficients zero), the integrator returns the
initial vector unchanged, for every initial vector and every time
grid. -/
theorem get_gibbs_zero_gradient_leaves_params_unchanged
    (grad : List ℚ → List ℚ) (t : ℚ) (num_time_steps : ℕ) (pv ts : List ℚ)
    (h : ∀ xs, grad xs = List.replicate xs.length 0) :
    get_gibbs_state_params grad t num_time_steps pv ts = pv := by
  have hstep : ∀ xs, natGradStep grad t num_time_steps xs = xs := by
    intro xs
    rw [natGradStep, h, zipWith_sub_smul_replicate_zero]
  rw [get_gibbs_state_params]
  induction ts generalizing pv with
  | nil => rfl
  | cons a ts ih => rw [List.foldl_cons, hstep, ih]

/-- Witness for C5 at a concrete input. -/
theorem get_gibbs_zero_gradient_leaves_params_unchanged_witness :
    get_gibbs_state_params (fun xs => List.replicate xs.length 0) (1/2) 10
      [1, 2] [0, 1/4, 1/2] = [1, 2] :=
  get_gibbs_zero_gradient_leaves_params_unchanged _ _ _ _ _ (fun _ => rfl)

/-- C8 counterexample: the claim that the result is determined by the
function's arguments alone fails — `get_gibbs_state_params` reads the
module globals `t` and `num_time_steps`, and two calls with identical
`(grad, param_values, time_steps)` arguments but different ambient `t`
return different vectors. -/
theorem get_gibbs_depends_on_ambient_globals :
    get_gibbs_state_params (fun pv => pv.map fun _ => 1) 1 1 [0] [0] ≠
      get_gibbs_state_params (fun pv => pv.map fun _ => 1) 2 1 [0] [0] := by
  simp only [get_gibbs_state_params, natGradStep, List.foldl_cons, List.foldl_nil,
    List.map_cons, List.map_nil, List.zipWith_cons_cons, List.zipWith_nil_right]
  norm_num

/-- C8 amended: the integrator's result is a deterministic function of
its arguments together with the ambient globals, and depends on the
globals only through the step size `t / num_time_steps`: two calls with
identical arguments and equal ambient step-size ratios return identical
results. -/
theorem get_gibbs_determined_by_args_and_step_size
    (grad : List ℚ → List ℚ) (t t' : ℚ) (n n' : ℕ) (pv ts : List ℚ)
    (h : t / (n : ℚ) = t' / (n' : ℚ)) :
    get_gibbs_state_params grad t n pv ts = get_gibbs_state_params grad t' n' pv ts := by
  have hstep : natGradStep grad t n = natGradStep grad t' n' := by
    funext xs
    simp only [natGradStep, h]
  simp only [get_gibbs_state_params, hstep]

/-- Witness for the amended C8 at a concrete input: `t=1, n=2` and
`t'=2, n'=4` have the same step ratio and give the same result. -/
theorem get_gibbs_determined_by_args_and_step_size_witness :
    get_gibbs_state_params (fun pv => pv.map fun _ => 1) 1 2 [0] [0] =
      get_gibbs_state_params (fun pv => pv.map fun _ => 1) 2 4 [0] [0] :=
  get_gibbs_determined_by_args_and_step_size _ 1 2 2 4 [0] [0] (by norm_num)

/-- C10: the heap-passing integrator never mutates any pre-existing
cell — in particular the caller's `param_values_init` cell is
element-for-element unchanged after any call, so every subsequent loss
evaluation starts from the same initial vector. -/
theorem get_gibbs_heap_preserves_caller_cells
    (grad : List ℚ → List ℚ) (t : ℚ) (num_time_steps : ℕ)
    (heap : List (List ℚ)) (r : ℕ) (ts : List ℚ) (i : ℕ) (hi : i < heap.length) :
    ((get_gibbs_state_params_heap grad t num_time_steps (heap, r) ts).1).getD i [] =
      heap.getD i [] := by
  obtain ⟨ext, hext⟩ := gibbsHeap_only_allocates grad t num_time_steps ts (heap, r)
  rw [hext]
  exact List.getD_append heap ext [] i hi

/-- Witness for C10 at a concrete input. -/
theorem get_gibbs_heap_preserves_caller_cells_witness :
    ((get_gibbs_state_params_heap (fun pv => pv.map fun _ => 1) (1/2) 10
      ([[1]], 0) [0]).1).getD 0 [] = [[(1:ℚ)]].getD 0 [] :=
  get_gibbs_heap_preserves_caller_cells _ (1/2) 10 [[1]] 0 [0] 0 (by norm_num)

/-! ## Claims about failure handling (C4) -/

/-- `nan` absorbs IEEE multiplication on the right. -/
theorem NpVal.mul_nan (x : NpVal) : NpVal.mul x NpVal.nan = NpVal.nan := by
  cases x <;> rfl

/-- `nan` absorbs IEEE subtraction on the right. -/
theorem NpVal.sub_nan (x : NpVal) : NpVal.sub x NpVal.nan = NpVal.nan := by
  cases x <;> rfl

/-- C4 counterexample: when the regularized solve inside the oracle
fails and yields `nan`, the integrator neither raises a typed
`NumericalInstability` error nor substitutes a sentinel loss — there is
no `try`/`except` or error type anywhere in the notebook — it returns a
parameter vector containing `nan`. -/
theorem get_gibbs_returns_nan_params_on_solve_failure :
    get_gibbs_state_params_np (fun _ => [NpVal.nan]) (1/2) 10
      [NpVal.fin 0] [NpVal.fin 0] = [NpVal.nan] ∧
    NpVal.nan ∈ get_gibbs_state_params_np (fun _ => [NpVal.nan]) (1/2) 10
      [NpVal.fin 0] [NpVal.fin 0] := by
  constructor
  · rfl
  · show NpVal.nan ∈ [NpVal.nan]
    exact List.mem_singleton.mpr rfl

/-- C4 amended: the notebook performs no failure handling at all — a
`nan` entry coming out of the natural-gradient solve is written
verbatim into the updated parameter vector by the Euler step (the
subtraction absorbs it), silently propagating NaN instead of signalling
an error. -/
theorem natGradStepNp_writes_nan_from_failed_solve
    (grad : List NpVal → List NpVal) (t : ℝ) (num_time_steps : ℕ)
    (pv : List NpVal) (i : ℕ)
    (hi : i < (natGradStepNp grad t num_time_steps pv).length)
    (hg : (grad pv).getD i NpVal.nan = NpVal.nan) :
    (natGradStepNp grad t num_time_steps pv).getD i NpVal.nan = NpVal.nan := by
  simp only [natGradStepNp] at hi ⊢
  have hlen := hi
  rw [List.length_zipWith, lt_min_iff] at hlen
  rw [List.getD_eq_getElem _ _ hlen.2] at hg
  rw [List.getD_eq_getElem _ _ hi, List.getElem_zipWith, hg, NpVal.mul_nan, NpVal.sub_nan]

/-- Witness for the amended C4 at a concrete input. -/
theorem natGradStepNp_writes_nan_from_failed_solve_witness :
    (natGradStepNp (fun _ => [NpVal.nan]) (1/2) 10 [NpVal.fin 0]).getD 0 NpVal.nan =
      NpVal.nan :=
  natGradStepNp_writes_nan_from_failed_solve (fun _ => [NpVal.nan]) (1/2) 10
    [NpVal.fin 0] 0 (by simp [natGradStepNp]) rfl

/-! ## Claim about the parameter initialisation (C9) -/

/-- C9: with `num_qubits = 4` and `depth = 1` the initial parameter
vector has length `2*4*(1+1) = 16`; the loop writes `π/2` exactly at
the indices in `range(8, 10)`, i.e. indices 8 and 9, and every other
entry is `0`. -/
theorem param_values_init_shape :
    (param_values_init 4 1).length = 16 ∧
    ∀ j : Fin 16, (param_values_init 4 1).getD j 0 =
      if (j : ℕ) = 8 ∨ (j : ℕ) = 9 then Real.pi / 2 else 0 := by
  constructor
  · simp [param_values_init]
  · intro j
    have hj : (j : ℕ) < (param_values_init 4 1).length := by
      simp [param_values_init]
    rw [List.getD_eq_getElem _ _ hj]
    simp only [param_values_init, List.getElem_map, List.getElem_range]
    have hiff : (2 * 4 * 1 ≤ (j : ℕ) ∧ (j : ℕ) < 2 * 4 * (1 + 1) - 4 - 2) ↔
        ((j : ℕ) = 8 ∨ (j : ℕ) = 9) := by omega
    simp only [hiff]

/-! ## Claim about the reduced density matrix (C6) -/

/-- C6: for every pure state of the full system with unit norm (the
statevector the ansatz produces at any valid parameter vector), the
reduced density matrix obtained by tracing out the first subsystem is
Hermitian and has trace exactly 1, and its diagonal — the trained
distribution — sums to exactly 1 (hence within any tolerance such as
1e-9), with no normalization step applied. -/
theorem reducedDensityMatrix_hermitian_trace_one
    (dA dB : ℕ) (ψ : Fin dA → Fin dB → ℂ)
    (hnorm : ∑ a, ∑ b, Complex.normSq (ψ a b) = 1) :
    (reducedDensityMatrix dA dB ψ).IsHermitian ∧
    Matrix.trace (reducedDensityMatrix dA dB ψ) = 1 ∧
    ∑ b, reducedDensityMatrix dA dB ψ b b = 1 := by
  have hdiag : ∑ b, reducedDensityMatrix dA dB ψ b b = 1 := by
    simp only [reducedDensityMatrix, Complex.mul_conj]
    rw [Finset.sum_comm]
    exact_mod_cast hnorm
  refine ⟨?_, ?_, hdiag⟩
  · show (reducedDensityMatrix dA dB ψ).conjTranspose = reducedDensityMatrix dA dB ψ
    ext b b'
    simp only [Matrix.conjTranspose_apply, reducedDensityMatrix, star_sum, star_mul',
      RCLike.star_def, Complex.conj_conj]
    exact Finset.sum_congr rfl fun a _ => mul_comm _ _
  · show ∑ b, (reducedDensityMatrix dA dB ψ).diag b = 1
    simpa [Matrix.diag] using hdiag

/-- Witness for C6 at a concrete input: the one-dimensional unit state. -/
theorem reducedDensityMatrix_hermitian_trace_one_witness :
    (reducedDensityMatrix 1 1 (fun _ _ => 1)).IsHermitian ∧
    Matrix.trace (reducedDensityMatrix 1 1 (fun _ _ => 1)) = 1 ∧
    ∑ b, reducedDensityMatrix 1 1 (fun _ _ => 1) b b = 1 :=
  reducedDensityMatrix_hermitian_trace_one 1 1 (fun _ _ => 1) (by simp)

/-! ## NpVal algebra needed for the loss claims -/

/-- IEEE addition on `NpVal` is commutative. -/
theorem NpVal.add_comm' (a b : NpVal) : NpVal.add a b = NpVal.add b a := by
  cases a <;> cases b <;> simp [NpVal.add, add_comm]

/-- IEEE addition on `NpVal` is associative (the `nan` results of
`(+inf) + (-inf)` absorb consistently). -/
theorem NpVal.add_assoc' (a b c : NpVal) :
    NpVal.add (NpVal.add a b) c = NpVal.add a (NpVal.add b c) := by
  cases a <;> cases b <;> cases c <;> simp [NpVal.add, add_assoc]

instance : RightCommutative NpVal.add :=
  ⟨fun b a₁ a₂ => by
    rw [NpVal.add_assoc', NpVal.add_assoc', NpVal.add_comm' a₁ a₂]⟩

/-- `np.sum` is invariant under permuting the summands. -/
theorem NpVal.sum_perm {l l' : List NpVal} (h : l.Perm l') :
    NpVal.sum l = NpVal.sum l' :=
  h.foldl_eq (NpVal.fin 0)

/-- Summing a list of finite values is the finite value of the real sum. -/
theorem NpVal.sum_map_fin (l : List ℝ) :
    NpVal.sum (l.map NpVal.fin) = NpVal.fin l.sum := by
  have key : ∀ (l : List ℝ) (acc : ℝ),
      (l.map NpVal.fin).foldl NpVal.add (NpVal.fin acc) = NpVal.fin (acc + l.sum) := by
    intro l
    induction l with
    | nil => intro acc; simp
    | cons x xs ih =>
      intro acc
      simp only [List.map_cons, List.foldl_cons, NpVal.add, List.sum_cons]
      rw [ih]
      ring_nf
  simpa using key l 0

/-- `zipWith` of two `ofFn` lists of the same length. -/
theorem zipWith_ofFn {α β γ : Type} (f : α → β → γ) :
    ∀ {n : ℕ} (a : Fin n → α) (b : Fin n → β),
      List.zipWith f (List.ofFn a) (List.ofFn b) = List.ofFn (fun i => f (a i) (b i))
  | 0, _, _ => rfl
  | n + 1, a, b => by
    simp only [List.ofFn_succ, List.zipWith_cons_cons]
    rw [zipWith_ofFn f (fun i => a i.succ) (fun i => b i.succ)]

/-- Finite log of a positive value. -/
theorem NpVal.log_fin_pos {r : ℝ} (h : 0 < r) :
    NpVal.log (NpVal.fin r) = NpVal.fin (Real.log r) := by
  simp [NpVal.log, h]

/-- `np.log 0 = -inf`. -/
theorem NpVal.log_fin_zero : NpVal.log (NpVal.fin 0) = NpVal.neginf := by
  simp [NpVal.log]

/-- `0 * (-inf) = nan`. -/
theorem NpVal.mul_fin_zero_neginf : NpVal.mul (NpVal.fin 0) NpVal.neginf = NpVal.nan := by
  simp [NpVal.mul]

/-- `nan` absorbs IEEE addition on the right. -/
theorem NpVal.add_nan (x : NpVal) : NpVal.add x NpVal.nan = NpVal.nan := by
  cases x <;> rfl

/-! ## Claims about the distribution-fitting loss (C3, C7) -/

/-- Finite times finite. -/
theorem NpVal.mul_fin_fin (a b : ℝ) :
    NpVal.mul (NpVal.fin a) (NpVal.fin b) = NpVal.fin (a * b) := rfl

/-- Finite plus finite. -/
theorem NpVal.add_fin_fin (a b : ℝ) :
    NpVal.add (NpVal.fin a) (NpVal.fin b) = NpVal.fin (a + b) := rfl

/-- On a trained vector whose entries are all positive, the elementwise
`np.multiply(p_target, np.log(p_qbm))` array is finite. -/
theorem zipWith_mul_log_all_pos :
    ∀ (target trained : List ℝ), (∀ x ∈ trained, 0 < x) →
      List.zipWith NpVal.mul (target.map NpVal.fin)
        ((trained.map NpVal.fin).map NpVal.log) =
      (List.zipWith (fun ti pi => ti * Real.log pi) target trained).map NpVal.fin
  | [], _, _ => by simp
  | _ :: _, [], _ => by simp
  | t :: ts, p :: ps, h => by
    have hp : 0 < p := h p (List.mem_cons_self p ps)
    have ih := zipWith_mul_log_all_pos ts ps fun x hx => h x (List.mem_cons_of_mem _ hx)
    simp only [List.map_cons, List.zipWith_cons_cons, NpVal.log_fin_pos hp,
      NpVal.mul_fin_fin, ih]

/-- Zero-target terms of the (real-valued) summand list contribute
nothing: masking them to `0` does not change the sum. -/
theorem zipWith_mul_log_mask :
    ∀ (target trained : List ℝ),
      (List.zipWith (fun ti pi => ti * Real.log pi) target trained).sum =
      (List.zipWith (fun ti pi => if ti = 0 then 0 else ti * Real.log pi)
        target trained).sum
  | [], _ => by simp
  | _ :: _, [] => by simp
  | t :: ts, p :: ps => by
    simp only [List.zipWith_cons_cons, List.sum_cons, zipWith_mul_log_mask ts ps]
    congr 1
    by_cases h : t = 0 <;> simp [h]

/-- C3 counterexample: take `p_target = [1, 0]` and `p_qbm = [1/2, 0]`;
the trained entry is positive at every index where the target is
nonzero, yet the loss is `nan` — the `log` of the zero-target index IS
computed, giving `0 * log 0 = 0 * (-inf) = nan`, which the sum absorbs.
The claimed value `-(1 * log (1/2)) = log 2` is finite. -/
theorem lossNp_nan_despite_positive_support :
    (∀ i : Fin 2, 0 < [(1:ℝ), 0].getD i 0 → 0 < [(1:ℝ)/2, 0].getD i 0) ∧
    lossNp [1, 0] [1/2, 0] = NpVal.nan ∧
    NpVal.nan ≠ NpVal.fin (Real.log 2) := by
  refine ⟨?_, ?_, by intro h; exact NpVal.noConfusion h⟩
  · intro i
    fin_cases i <;> norm_num
  · have h1 : NpVal.log (NpVal.fin ((1:ℝ)/2)) = NpVal.fin (Real.log (1/2)) :=
      NpVal.log_fin_pos (by norm_num)
    simp only [lossNp, List.map_cons, List.map_nil, h1, NpVal.log_fin_zero,
      List.zipWith_cons_cons, List.zipWith_nil_right, NpVal.mul_fin_fin,
      NpVal.mul_fin_zero_neginf, NpVal.sum, List.foldl_cons, List.foldl_nil,
      NpVal.add_fin_fin, NpVal.add_nan]
    rfl

/-- C3 amended: `np.log` is applied at EVERY index (zero-target indices
are not skipped).  When every trained entry is positive the loss equals
the finite value `-(∑ᵢ targetᵢ * log trainedᵢ)`, and the zero-target
terms contribute `0`, so that value coincides with the sum restricted
to the support of the target; but when a zero-target index carries a
zero trained entry the computed `0 * log 0` is `nan` and the loss is
`nan`, not a finite number. -/
theorem lossNp_finite_when_trained_all_positive
    (target trained : List ℝ) (hpos : ∀ x ∈ trained, 0 < x) :
    lossNp target trained =
      NpVal.fin (-(List.zipWith (fun ti pi => ti * Real.log pi) target trained).sum) ∧
    (List.zipWith (fun ti pi => ti * Real.log pi) target trained).sum =
      (List.zipWith (fun ti pi => if ti = 0 then 0 else ti * Real.log pi)
        target trained).sum := by
  refine ⟨?_, zipWith_mul_log_mask target trained⟩
  rw [lossNp, zipWith_mul_log_all_pos target trained hpos, NpVal.sum_map_fin]
  rfl

/-- Witness for the amended C3 at a concrete input. -/
theorem lossNp_finite_when_trained_all_positive_witness :
    lossNp [1, 0] [1/2, 1/2] =
      NpVal.fin (-(List.zipWith (fun ti pi => ti * Real.log pi)
        [(1:ℝ), 0] [1/2, 1/2]).sum) ∧
    (List.zipWith (fun ti pi => ti * Real.log pi) [(1:ℝ), 0] [1/2, 1/2]).sum =
      (List.zipWith (fun ti pi => if ti = 0 then 0 else ti * Real.log pi)
        [(1:ℝ), 0] [1/2, 1/2]).sum :=
  lossNp_finite_when_trained_all_positive [1, 0] [1/2, 1/2] (by
    intro x hx
    simp only [List.mem_cons, List.not_mem_nil, or_false] at hx
    rcases hx with h | h <;> rw [h] <;> norm_num)

/-- C7: the loss is invariant under permuting the target and trained
distributions simultaneously by the same index permutation. -/
theorem lossNp_perm_invariant {n : ℕ} (σ : Equiv.Perm (Fin n))
    (target trained : Fin n → ℝ) :
    lossNp (List.ofFn (fun i => target (σ i))) (List.ofFn (fun i => trained (σ i))) =
      lossNp (List.ofFn target) (List.ofFn trained) := by
  simp only [lossNp, List.map_ofFn]
  rw [zipWith_ofFn, zipWith_ofFn]
  congr 1
  apply NpVal.sum_perm
  exact Equiv.Perm.ofFn_comp_perm σ
    (fun i => NpVal.mul (NpVal.fin (target i)) (NpVal.log (NpVal.fin (trained i))))
